/-
  Verification of the rk3588-bench matrix-multiplication benchmark
  (src/bench.cpp) against its natural-language specification.

  Shallow embedding conventions:
  * `float`/`double` values are modelled by exact rationals `ℚ`
    (the one transcendental, `std::sqrt`, is modelled by `Real.sqrt` on `ℝ`).
  * `std::vector<float>` is `List ℚ`; unchecked `operator[]` reads become
    `List.getD _ 0` (total, defaulting to 0), and a separate checked variant
    uses `l[i]?` to make out-of-bounds observable.
  * Randomness (`make_random_matrix`) and the wall clock are modelled by
    oracle functions `ℕ → ℚ` supplied as parameters.
  * The external RKNN driver calls are modelled by an observable event trace
    (`RknnEvent`); the external `rknn_matmul_create` status is an oracle
    parameter and `abort()` is modelled by `Except.error`.
-/

import Mathlib

/-- `calculateAverage` from src/bench.cpp: sums the samples with a left fold
and divides by the length.  (On the empty list the C++ code divides 0.0 by 0,
producing NaN; in `ℚ` the same division yields 0.  All claims about this
function assume a non-empty list.) -/
def calculateAverage (vec : List ℚ) : ℚ :=
  vec.foldl (fun s v => s + v) 0 / vec.length

/-- `calculateStdDev` from src/bench.cpp: computes the mean once, then
left-folds the squared deviations `(v - mean) * (v - mean)`, divides by the
length, and takes the square root. -/
noncomputable def calculateStdDev (vec : List ℚ) : ℝ :=
  let mean := calculateAverage vec
  Real.sqrt (((vec.foldl (fun s v => s + (v - mean) * (v - mean)) 0 / vec.length : ℚ) : ℝ))

/-- The row-major iteration order of `matmul_naive`'s two outer loops:
the pairs `(i, j)` for `i < M` (outer) and `j < N` (inner), in loop order. -/
def mnIndices (M N : ℕ) : List (ℕ × ℕ) :=
  (List.range M).flatMap (fun i => (List.range N).map (fun j => (i, j)))

/-- The inner `k`-loop of `matmul_naive`: `sum += A[i*K + k] * B[k*N + j]`
for `k = 0, 1, ..., K-1` in ascending order, starting from `0.0f`. -/
def matDot (A B : List ℚ) (K N i j : ℕ) : ℚ :=
  (List.range K).foldl (fun sum k => sum + A.getD (i * K + k) 0 * B.getD (k * N + j) 0) 0

/-- `matmul_naive` from src/bench.cpp: the triple loop
`for i < M, for j < N, for k < K: C[i*N+j] = Σ A[i*K+k]*B[k*N+j]`,
writing the `M*N` output cells in row-major loop order. -/
def matmul_naive (A B : List ℚ) (M K N : ℕ) : List ℚ :=
  (mnIndices M N).map (fun ij => matDot A B K N ij.1 ij.2)

/-- Option-valued traversal used by the checked variant of the naive loop. -/
def mapOption (f : α → Option β) : List α → Option (List β)
  | [] => some []
  | a :: l => do
      let b ← f a
      let bs ← mapOption f l
      pure (b :: bs)

/-- The inner `k`-loop of `matmul_naive` with every element access
bounds-checked: `none` as soon as an index is out of range. -/
def matDotChecked (A B : List ℚ) (K N i j : ℕ) : Option ℚ :=
  (List.range K).foldlM (fun sum k => do
      let a ← A[i * K + k]?
      let b ← B[k * N + j]?
      pure (sum + a * b)) 0

/-- `matmul_naive` with bounds-checked accesses: returns `none` iff some
access `A[i*K+k]` or `B[k*N+j]` performed by the loops is out of bounds. -/
def matmul_naive_checked (A B : List ℚ) (M K N : ℕ) : Option (List ℚ) :=
  mapOption (fun ij => matDotChecked A B K N ij.1 ij.2) (mnIndices M N)

/-- Entry `op(X)[r][c]` of a row-major operand of `cblas_sgemm` with leading
dimension `ld`, transposed when `trans` is set. -/
def opEntry (trans : Bool) (X : List ℚ) (ld r c : ℕ) : ℚ :=
  if trans then X.getD (c * ld + r) 0 else X.getD (r * ld + c) 0

/-- Modelled from the spec: the external dense linear-algebra routine
(`cblas_sgemm`, not part of this repository) "accepts row-major storage
order, explicit transpose flags per operand, leading dimensions (strides)
per operand, and scalar pre/post-multiply factors; computes
`C := alpha·op(A)·op(B) + beta·C` in place into a caller-provided buffer",
where `op(A)` is `m×k` and `op(B)` is `k×n`.  Cells of `C` outside the
`m×n` result block are left unchanged. -/
def cblas_sgemm (transA transB : Bool) (m n k : ℕ) (alpha : ℚ)
    (A : List ℚ) (lda : ℕ) (B : List ℚ) (ldb : ℕ)
    (beta : ℚ) (C : List ℚ) (ldc : ℕ) : List ℚ :=
  (List.range C.length).map (fun idx =>
    let i := idx / ldc
    let j := idx % ldc
    if i < m ∧ j < n then
      alpha * (List.range k).foldl
          (fun s l => s + opEntry transA A lda i l * opEntry transB B ldb l j) 0
        + beta * C.getD idx 0
    else C.getD idx 0)

/-- `matmul_cblas` from src/bench.cpp: allocates a zeroed `M*N` output and
calls `cblas_sgemm(CblasRowMajor, CblasNoTrans, CblasTrans, M, N, K, 1.0f,
A, K, B, N, 0.0f, C, N)`. -/
def matmul_cblas (A B : List ℚ) (M K N : ℕ) : List ℚ :=
  cblas_sgemm false true M N K 1 A K B N 0 (List.replicate (M * N) 0) N

/-- The transpose of an `N×N` row-major matrix (used to state what the
`CblasTrans` flag makes `matmul_cblas` actually compute on the square
shapes the program benchmarks). -/
def transposeSq (N : ℕ) (B : List ℚ) : List ℚ :=
  (List.range (N * N)).map (fun idx => B.getD ((idx % N) * N + idx / N) 0)

/-- `make_random_matrix<float>(M, N)` from src/bench.cpp: a fresh vector of
`M*N` values drawn in order from a pseudo-random source, here abstracted as
the oracle `rng` giving the `i`-th draw of this particular call. -/
def make_random_matrix (rng : ℕ → ℚ) (M N : ℕ) : List ℚ :=
  (List.range (M * N)).map rng

/-- `set_matrix_data` from src/bench.cpp: converts the host data
element-by-element to 16-bit float and stores it in the device region.
The `__fp16` narrowing conversion is abstracted as `cvt`. -/
def set_matrix_data (cvt : ℚ → ℚ) (data : List ℚ) : List ℚ :=
  data.map cvt

/-- Observable interactions of the program with the RKNN driver.
`uploadA`/`uploadB` carry the converted payload written by
`set_matrix_data`; `destroyMem`/`destroyCtx` are the calls made by
`free_matmul` (`rknn_destroy_mem` / `rknn_matmul_destroy`). -/
inductive RknnEvent where
  | create (M K N : ℕ)
  | uploadA (payload : List ℚ)
  | uploadB (payload : List ℚ)
  | run
  | destroyMem
  | destroyCtx
  deriving DecidableEq

/-- `free_matmul` from src/bench.cpp: destroys the three device memory
regions, then the matmul context.  (Defined in the source but never called
from `bench_all` or `main`.) -/
def free_matmul : List RknnEvent :=
  [RknnEvent.destroyMem, RknnEvent.destroyMem, RknnEvent.destroyMem, RknnEvent.destroyCtx]

/-- One invocation of the rknn closure built in `bench_all`
(src/bench.cpp lines 179-188): the C++ `static bool first` local —
shared by every instance of the closure, process-wide — guards the upload;
every invocation then triggers `rknn_matmul_run`.
Input: the current value of the static flag.  Output: the new flag value
and the driver events this invocation emits. -/
def rknn_call (cvt : ℚ → ℚ) (A B : List ℚ) (first : Bool) : Bool × List RknnEvent :=
  if first then
    (false, [RknnEvent.uploadA (set_matrix_data cvt A),
             RknnEvent.uploadB (set_matrix_data cvt B),
             RknnEvent.run])
  else
    (first, [RknnEvent.run])

/-- `R` successive invocations of the rknn closure on the fixed pair
`(A, B)` (the loop body of `benchmark`), threading the static flag. -/
def rknn_iters (cvt : ℚ → ℚ) (A B : List ℚ) : ℕ → Bool → Bool × List RknnEvent
  | 0, first => (first, [])
  | R + 1, first =>
      let step := rknn_call cvt A B first
      let rest := rknn_iters cvt A B R step.1
      (rest.1, step.2 ++ rest.2)

/-- The context record filled in by `make_matmul` (shape bound at setup). -/
structure RknnCtx where
  M : ℕ
  K : ℕ
  N : ℕ
  deriving DecidableEq

/-- `make_matmul` from src/bench.cpp: negotiates the computation plan via
the external `rknn_matmul_create` (its status is the oracle argument
`createRet`); a negative status prints the status and calls `abort()`,
modelled as `Except.error createRet`; otherwise the three device regions
are created and bound and the context is returned. -/
def make_matmul (M K N : ℕ) (createRet : ℤ) : Except ℤ RknnCtx :=
  if createRet < 0 then Except.error createRet else Except.ok ⟨M, K, N⟩

/-- The per-invocation timing samples and per-invocation backend arguments
recorded by one `benchmark` call, together with its returned triple. -/
structure BenchRun where
  A : List ℚ
  B : List ℚ
  calls : List (List ℚ × List ℚ)
  outputs : List (List ℚ)
  samples : List ℚ
  result : Option (ℚ × ℚ × ℝ)

/-- `benchmark` from src/bench.cpp: generates one random `A` (`M×K`) and one
random `B` (`K×N`), then loops `repeat` times invoking `func(A, B, M, K, N)`
and recording one wall-clock sample per iteration (the clock is the oracle
`dur`), and reduces the samples to
`(min_element, calculateAverage, calculateStdDev)`.
`std::min_element` on an empty range is undefined in C++, so the returned
triple is `none` when `R = 0`. -/
noncomputable def benchmark (M K N R : ℕ)
    (func : List ℚ → List ℚ → ℕ → ℕ → ℕ → List ℚ)
    (rngA rngB dur : ℕ → ℚ) : BenchRun :=
  let A := make_random_matrix rngA M K
  let B := make_random_matrix rngB K N
  let times := (List.range R).map dur
  { A := A
    B := B
    calls := (List.range R).map (fun _ => (A, B))
    outputs := (List.range R).map (fun _ => func A B M K N)
    samples := times
    result := times.min?.map (fun m => (m, calculateAverage times, calculateStdDev times)) }

/-- The pseudo-random and wall-clock oracles consumed by one `bench_all`
call: one rng per `make_random_matrix` call (two per `benchmark`) and one
clock per `benchmark` call, in source order (naive, cblas, rknn). -/
structure Oracles where
  rng1a : ℕ → ℚ
  rng1b : ℕ → ℚ
  rng2a : ℕ → ℚ
  rng2b : ℕ → ℚ
  rng3a : ℕ → ℚ
  rng3b : ℕ → ℚ
  dur1 : ℕ → ℚ
  dur2 : ℕ → ℚ
  dur3 : ℕ → ℚ

/-- What one `bench_all` call does at one size: the naive and cblas
benchmark runs, and — for the rknn backend — the driver event trace and the
timing samples of its benchmark run. -/
structure BenchAllRun where
  naive : BenchRun
  cblas : BenchRun
  rknnEvents : List RknnEvent
  rknnSamples : List ℚ

/-- `bench_all` from src/bench.cpp (successful-setup path): benchmarks the
naive backend with the fixed repeat count 3, the cblas backend with the
caller's `R`, then builds the rknn closure (`make_matmul`, emitting
`create`) and benchmarks it with `R`, threading the process-wide static
`first` flag.  Returns the run record and the flag value after this size. -/
noncomputable def bench_all (cvt : ℚ → ℚ) (M K N R : ℕ) (o : Oracles) (first : Bool) :
    BenchAllRun × Bool :=
  let naiveRun := benchmark M K N 3 matmul_naive o.rng1a o.rng1b o.dur1
  let cblasRun := benchmark M K N R matmul_cblas o.rng2a o.rng2b o.dur2
  let A3 := make_random_matrix o.rng3a M K
  let B3 := make_random_matrix o.rng3b K N
  let it := rknn_iters cvt A3 B3 R first
  (⟨naiveRun, cblasRun, RknnEvent.create M K N :: it.2, (List.range R).map o.dur3⟩, it.1)

/-- The compiled-in size list of `main`. -/
def mainSizes : List ℕ := [256, 512, 1024, 2048]

/-- The compiled-in repeat count of `main`. -/
def mainRepeat : ℕ := 20

/-- The size loop of `main` (successful-setup path): one `bench_all` per
size at shape `(s, s, s)` with repeat `mainRepeat`, threading the static
`first` flag from one size to the next exactly as the process does. -/
noncomputable def runSizes (cvt : ℚ → ℚ) (orc : ℕ → Oracles) :
    List ℕ → Bool → List (ℕ × BenchAllRun)
  | [], _ => []
  | s :: rest, first =>
      let r := bench_all cvt s s s mainRepeat (orc s) first
      (s, r.1) :: runSizes cvt orc rest r.2

/-- A concrete all-zero oracle bundle, used to evaluate the driver model at
the failing inputs. -/
def zeroOracles : Oracles :=
  ⟨fun _ => 0, fun _ => 0, fun _ => 0, fun _ => 0, fun _ => 0, fun _ => 0,
   fun _ => 0, fun _ => 0, fun _ => 0⟩

/-- The termination behaviour of `main`: walk the size list; each size's
setup calls `make_matmul`, whose `abort()` on a negative
`rknn_matmul_create` status ends the process abnormally with that status;
if every setup succeeds, `main` returns 0. -/
def mainExitGo (createRet : ℕ → ℤ) : List ℕ → Except ℤ ℕ
  | [] => Except.ok 0
  | s :: rest =>
      match make_matmul s s s (createRet s) with
      | Except.error st => Except.error st
      | Except.ok _ => mainExitGo createRet rest

/-- The exit status of the whole program, given the external
`rknn_matmul_create` status for each size. -/
def mainExit (createRet : ℕ → ℤ) : Except ℤ ℕ :=
  mainExitGo createRet mainSizes

/-- Is this driver event one of the two input uploads? -/
def isUpload : RknnEvent → Bool
  | RknnEvent.uploadA _ => true
  | RknnEvent.uploadB _ => true
  | _ => false

/-- Is this driver event a resource release (`rknn_destroy_mem` or
`rknn_matmul_destroy`)? -/
def isDestroy : RknnEvent → Bool
  | RknnEvent.destroyMem => true
  | RknnEvent.destroyCtx => true
  | _ => false

/-- Is this driver event a plan execution (`rknn_matmul_run`)? -/
def isRun : RknnEvent → Bool
  | RknnEvent.run => true
  | _ => false

/- ### Helper lemmas -/

theorem foldl_add_sum : ∀ (l : List ℚ) (s : ℚ), l.foldl (fun a v => a + v) s = s + l.sum
  | [], s => by simp
  | v :: l, s => by
    rw [List.foldl_cons, foldl_add_sum l (s + v), List.sum_cons]
    ring

theorem foldl_add_map {α : Type} (g : α → ℚ) :
    ∀ (l : List α) (s : ℚ), l.foldl (fun a v => a + g v) s = s + (l.map g).sum
  | [], s => by simp
  | v :: l, s => by
    rw [List.foldl_cons, foldl_add_map g l (s + g v), List.map_cons, List.sum_cons]
    ring

theorem sum_map_range (g : ℕ → ℚ) :
    ∀ (K : ℕ), ((List.range K).map g).sum = ∑ k ∈ Finset.range K, g k
  | 0 => by simp
  | K + 1 => by
    rw [List.range_succ, List.map_append, List.sum_append, Finset.sum_range_succ,
      sum_map_range g K]
    simp

theorem foldl_min_le_self : ∀ (l : List ℚ) (a : ℚ), l.foldl min a ≤ a
  | [], a => le_refl a
  | b :: l, a => le_trans (foldl_min_le_self l (min a b)) (min_le_left a b)

theorem foldl_min_le_mem : ∀ (l : List ℚ) (a x : ℚ), x ∈ l → l.foldl min a ≤ x
  | b :: l, a, x, h => by
    rcases List.mem_cons.mp h with h1 | h2
    · subst h1
      exact le_trans (foldl_min_le_self l (min a x)) (min_le_right a x)
    · exact foldl_min_le_mem l (min a b) x h2

theorem foldl_min_mem : ∀ (l : List ℚ) (a : ℚ), l.foldl min a ∈ a :: l
  | [], a => List.mem_singleton.mpr rfl
  | b :: l, a => by
    have h := foldl_min_mem l (min a b)
    rcases List.mem_cons.mp h with h1 | h2
    · rcases min_choice a b with hc | hc
      · rw [List.foldl_cons, h1, hc]
        exact List.mem_cons_self a (b :: l)
      · rw [List.foldl_cons, h1, hc]
        exact List.mem_cons_of_mem a (List.mem_cons_self b l)
    · exact List.mem_cons_of_mem a (List.mem_cons_of_mem b h2)

/-- The minimum of a non-empty sample list: what `*std::min_element(...)`
returns in `benchmark`. -/
theorem listMin_spec : ∀ (l : List ℚ), l ≠ [] →
    ∃ m, l.min? = some m ∧ m ∈ l ∧ ∀ x ∈ l, m ≤ x := by
  intro l hl
  match l with
  | a :: t =>
    refine ⟨t.foldl min a, rfl, foldl_min_mem t a, ?_⟩
    intro x hx
    rcases List.mem_cons.mp hx with h1 | h2
    · subst h1
      exact foldl_min_le_self t x
    · exact foldl_min_le_mem t a x h2

theorem mul_length_le_sum : ∀ (l : List ℚ) (m : ℚ), (∀ x ∈ l, m ≤ x) →
    m * l.length ≤ l.sum
  | [], m, _ => by simp
  | a :: l, m, h => by
    have ha := h a (List.mem_cons_self a l)
    have ih := mul_length_le_sum l m (fun x hx => h x (List.mem_cons_of_mem a hx))
    simp only [List.sum_cons, List.length_cons]
    push_cast
    calc m * ((l.length : ℚ) + 1) = m * l.length + m := by ring
      _ ≤ l.sum + a := add_le_add ih ha
      _ = a + l.sum := by ring

theorem sum_const_of_eq : ∀ (l : List ℚ) (c : ℚ), (∀ x ∈ l, x = c) →
    l.sum = l.length * c
  | [], c, _ => by simp
  | a :: l, c, h => by
    have ha := h a (List.mem_cons_self a l)
    have ih := sum_const_of_eq l c (fun x hx => h x (List.mem_cons_of_mem a hx))
    simp only [List.sum_cons, List.length_cons, ha, ih]
    push_cast
    ring

theorem sum_nonneg_eq_zero_iff : ∀ (l : List ℚ), (∀ x ∈ l, 0 ≤ x) →
    (l.sum = 0 ↔ ∀ x ∈ l, x = 0)
  | [], _ => by simp
  | a :: l, h => by
    have ha := h a (List.mem_cons_self a l)
    have hl : ∀ x ∈ l, 0 ≤ x := fun x hx => h x (List.mem_cons_of_mem a hx)
    have hsum : 0 ≤ l.sum := List.sum_nonneg hl
    have ih := sum_nonneg_eq_zero_iff l hl
    simp only [List.sum_cons, List.mem_cons]
    rw [add_eq_zero_iff_of_nonneg ha hsum, ih]
    constructor
    · rintro ⟨h1, h2⟩ x (rfl | hx)
      · exact h1
      · exact h2 x hx
    · intro hx
      exact ⟨hx a (Or.inl rfl), fun x hx' => hx x (Or.inr hx')⟩

theorem index_lt {i M j N : ℕ} (hi : i < M) (hj : j < N) : i * N + j < M * N :=
  calc i * N + j < i * N + N := by omega
    _ = (i + 1) * N := by ring
    _ ≤ M * N := Nat.mul_le_mul_right N hi

theorem mnIndices_eq (N : ℕ) : ∀ (M : ℕ),
    mnIndices M N = (List.range (M * N)).map (fun idx => (idx / N, idx % N))
  | 0 => by simp [mnIndices]
  | M + 1 => by
    have ih := mnIndices_eq N M
    have h1 : (M + 1) * N = M * N + N := by ring
    rw [mnIndices, List.range_succ, List.flatMap_append, ← mnIndices, ih, h1,
      List.range_add, List.map_append]
    congr 1
    simp only [List.flatMap_cons, List.flatMap_nil, List.append_nil, List.map_map]
    apply List.map_congr_left
    intro j hj
    rw [List.mem_range] at hj
    have hc : M * N + j = j + N * M := by ring
    simp only [Function.comp_apply, hc, Nat.add_mul_div_left _ _ (by omega : 0 < N),
      Nat.add_mul_mod_self_left, Nat.div_eq_of_lt hj, Nat.mod_eq_of_lt hj]
    simp

theorem getD_map_range {α : Type} (f : ℕ → α) (d : α) {n idx : ℕ} (h : idx < n) :
    ((List.range n).map f).getD idx d = f idx := by
  have hlen : idx < ((List.range n).map f).length := by simpa using h
  rw [List.getD_eq_getElem _ _ hlen, List.getElem_map, List.getElem_range]

theorem mapOption_eq_some (f : α → Option β) (g : α → β) :
    ∀ (l : List α), (∀ x ∈ l, f x = some (g x)) → mapOption f l = some (l.map g)
  | [], _ => rfl
  | a :: l, h => by
    have ih := mapOption_eq_some f g l (fun x hx => h x (List.mem_cons_of_mem a hx))
    simp [mapOption, h a (List.mem_cons_self a l), ih]

theorem calculateAverage_eq (vec : List ℚ) :
    calculateAverage vec = vec.sum / vec.length := by
  unfold calculateAverage
  rw [foldl_add_sum, zero_add]

theorem calculateStdDev_eq (vec : List ℚ) :
    calculateStdDev vec =
      Real.sqrt
        (((vec.map
              (fun x => (x - calculateAverage vec) * (x - calculateAverage vec))).sum
            / vec.length : ℚ)) := by
  have h := foldl_add_map
    (fun v => (v - calculateAverage vec) * (v - calculateAverage vec)) vec 0
  rw [zero_add] at h
  show Real.sqrt
      (((vec.foldl
            (fun s v => s + (v - calculateAverage vec) * (v - calculateAverage vec)) 0
          / vec.length : ℚ) : ℝ)) = _
  rw [h]

theorem rknn_iters_countP_run (cvt : ℚ → ℚ) (A B : List ℚ) :
    ∀ (R : ℕ) (first : Bool), ((rknn_iters cvt A B R first).2).countP isRun = R
  | 0, first => rfl
  | R + 1, first => by
    cases first <;>
      simp [rknn_iters, rknn_call, List.countP_append, List.countP_cons, isRun,
        rknn_iters_countP_run cvt A B R]

theorem matDotChecked_eq (A B : List ℚ) (K N i j : ℕ)
    (hA : ∀ k, k < K → i * K + k < A.length)
    (hB : ∀ k, k < K → k * N + j < B.length) :
    matDotChecked A B K N i j = some (matDot A B K N i j) := by
  unfold matDotChecked matDot
  have main : ∀ (l : List ℕ), (∀ k ∈ l, k < K) → ∀ (s : ℚ),
      (l.foldlM (fun sum k => do
          let a ← A[i * K + k]?
          let b ← B[k * N + j]?
          pure (sum + a * b)) s : Option ℚ)
        = some (l.foldl (fun sum k => sum + A.getD (i * K + k) 0 * B.getD (k * N + j) 0) s) := by
    intro l
    induction l with
    | nil => intro _ s; rfl
    | cons a l ih =>
      intro h s
      have ha := h a (List.mem_cons_self a l)
      have hAa := hA a ha
      have hBa := hB a ha
      rw [List.foldlM_cons, List.getElem?_eq_getElem hAa]
      simp only [Option.some_bind, List.getElem?_eq_getElem hBa, Option.pure_def]
      rw [List.foldl_cons]
      rw [List.getD_eq_getElem A 0 hAa, List.getD_eq_getElem B 0 hBa]
      exact ih (fun x hx => h x (List.mem_cons_of_mem a hx)) _
  exact main (List.range K) (fun k hk => List.mem_range.mp hk) 0

theorem mainExitGo_ok (ret : ℕ → ℤ) :
    ∀ (l : List ℕ), (∀ s ∈ l, 0 ≤ ret s) → mainExitGo ret l = Except.ok 0
  | [], _ => rfl
  | s :: rest, h => by
    have hs := h s (List.mem_cons_self s rest)
    have ih := mainExitGo_ok ret rest (fun t ht => h t (List.mem_cons_of_mem s ht))
    simp [mainExitGo, make_matmul, not_lt.mpr hs, ih]

theorem mainExitGo_abort (ret : ℕ → ℤ) (st : ℕ) (hneg : ret st < 0) :
    ∀ (pre : List ℕ), (∀ t ∈ pre, 0 ≤ ret t) →
      ∀ (post : List ℕ), mainExitGo ret (pre ++ st :: post) = Except.error (ret st)
  | [], _, post => by simp [mainExitGo, make_matmul, hneg]
  | a :: pre, h, post => by
    have ha := h a (List.mem_cons_self a pre)
    have ih := mainExitGo_abort ret st hneg pre
      (fun t ht => h t (List.mem_cons_of_mem a ht)) post
    simp [mainExitGo, make_matmul, not_lt.mpr ha, ih]

/- ### Claim theorems -/

/-- Claim C1 — the code FAILS it.  The claim says the hardware backend
uploads (converts to 16-bit and copies) the inputs on the first invocation
of each size's backend.  In the code the guarding `static bool first` local
of the lambda is shared by every closure instance process-wide, so running
`main`'s sizes 256, 512, 1024, 2048 (repeat 20), exactly 2 upload events
(`set_matrix_data` on A and B) happen during the whole size-256 run and 0
upload events happen for each of sizes 512, 1024, 2048, whose device input
regions are never filled; every invocation does trigger plan execution
(20 `rknn_matmul_run` events per size). -/
theorem rknn_upload_only_first_size :
    (runSizes id (fun _ => zeroOracles) mainSizes true).map
        (fun p => (p.1, p.2.rknnEvents.countP isUpload))
      = [(256, 2), (512, 0), (1024, 0), (2048, 0)] ∧
    (runSizes id (fun _ => zeroOracles) mainSizes true).map
        (fun p => p.2.rknnEvents.countP isRun) = [20, 20, 20, 20] := by
  constructor <;> decide

/-- Claim C2 counterexample: at M = K = N = 2 (all ≥ 1) with A the identity
and B = [[0,1],[0,0]], `matmul_cblas` does not return the standard product
`A*B = matmul_naive A B` (it returns its transpose). -/
theorem matmul_cblas_counterexample :
    ¬ (matmul_cblas [1, 0, 0, 1] [0, 1, 0, 0] 2 2 2 =
        matmul_naive [1, 0, 0, 1] [0, 1, 0, 0] 2 2 2) := by
  intro h
  have := congrArg (fun l => List.getD l 1 0) h
  norm_num [matmul_cblas, matmul_naive, cblas_sgemm, mnIndices, matDot, opEntry,
    List.range_succ] at this

/-- Claim C2 as amended: because the source passes `CblasTrans` for the
right operand (with `ldb = N`), on the square shapes the program uses
(`K = N`) the library-accelerated backend computes `A·Bᵀ` under exact
arithmetic: `matmul_cblas A B M N N = matmul_naive A Bᵀ M N N`.  It agrees
with `matmul_naive A B` only when `B` is symmetric. -/
theorem matmul_cblas_eq_naive_transpose (M N : ℕ) (A B : List ℚ) :
    matmul_cblas A B M N N = matmul_naive A (transposeSq N B) M N N := by
  unfold matmul_cblas cblas_sgemm matmul_naive
  rw [mnIndices_eq, List.map_map, List.length_replicate]
  apply List.map_congr_left
  intro idx hidx
  rw [List.mem_range] at hidx
  have hN : 0 < N := by
    rcases Nat.eq_zero_or_pos N with h | h
    · subst h; simp at hidx
    · exact h
  have hi : idx / N < M := (Nat.div_lt_iff_lt_mul hN).mpr hidx
  have hj : idx % N < N := Nat.mod_lt _ hN
  simp only [hi, hj, and_self, if_pos, Function.comp_apply]
  unfold matDot
  rw [one_mul, zero_mul, add_zero]
  apply List.foldl_ext
  intro s k hk
  rw [List.mem_range] at hk
  have ht : (transposeSq N B).getD (k * N + idx % N) 0 = B.getD ((idx % N) * N + k) 0 := by
    unfold transposeSq
    rw [getD_map_range _ _ (index_lt hk hj)]
    have hc : k * N + idx % N = idx % N + N * k := by ring
    rw [hc, Nat.add_mul_mod_self_left, Nat.add_mul_div_left _ _ hN,
      Nat.mod_eq_of_lt hj, Nat.div_eq_of_lt hj, Nat.zero_add]
  rw [ht]
  unfold opEntry
  simp

/-- Claim C3 — the code FAILS it.  The claim (and the spec invariant) says
the device context of each size is destroyed exactly once after that size's
last timed invocation.  In the code `free_matmul` is never called: running
`main`'s four sizes produces zero destroy events
(`rknn_destroy_mem`/`rknn_matmul_destroy`) in every size's trace, so all
four contexts leak.  (`free_matmul` itself would emit four destroy
events.) -/
theorem rknn_context_never_destroyed :
    (runSizes id (fun _ => zeroOracles) mainSizes true).map
        (fun p => p.2.rknnEvents.countP isDestroy) = [0, 0, 0, 0] ∧
    free_matmul.countP isDestroy = 4 := by
  constructor <;> decide

/-- Claim C4: for M, K, N ≥ 1 and inputs of the right lengths,
`matmul_naive` returns exactly `M*N` elements, the cell `C[i*N+j]` is the
sum over `k < K` of `A[i*K+k] * B[k*N+j]` (the ascending-`k` accumulation
of the source is the defining fold of `matDot`), and at M = K = N = 1 the
single output element is `A[0] * B[0]`. -/
theorem matmul_naive_spec (M K N : ℕ) (A B : List ℚ)
    (hM : 1 ≤ M) (hK : 1 ≤ K) (hN : 1 ≤ N)
    (hA : A.length = M * K) (hB : B.length = K * N) :
    (matmul_naive A B M K N).length = M * N ∧
    (∀ i j, i < M → j < N →
      (matmul_naive A B M K N).getD (i * N + j) 0
        = ∑ k ∈ Finset.range K, A.getD (i * K + k) 0 * B.getD (k * N + j) 0) ∧
    (M = 1 → K = 1 → N = 1 →
      matmul_naive A B M K N = [A.getD 0 0 * B.getD 0 0]) := by
  refine ⟨?_, ?_, ?_⟩
  · unfold matmul_naive
    rw [mnIndices_eq]
    simp
  · intro i j hi hj
    unfold matmul_naive
    rw [mnIndices_eq, List.map_map, getD_map_range _ _ (index_lt hi hj)]
    have hdiv : (i * N + j) / N = i := by
      have hc : i * N + j = j + N * i := by ring
      rw [hc, Nat.add_mul_div_left _ _ (by omega : 0 < N), Nat.div_eq_of_lt hj,
        Nat.zero_add]
    have hmod : (i * N + j) % N = j := by
      have hc : i * N + j = j + N * i := by ring
      rw [hc, Nat.add_mul_mod_self_left, Nat.mod_eq_of_lt hj]
    simp only [Function.comp_apply, hdiv, hmod]
    unfold matDot
    rw [foldl_add_map (fun k => A.getD (i * K + k) 0 * B.getD (k * N + j) 0), zero_add,
      sum_map_range]
  · intro h1 h2 h3
    subst h1; subst h2; subst h3
    simp [matmul_naive, mnIndices, matDot, List.range_succ]

/-- Witness for C4: `matmul_naive_spec` applied at M = K = N = 1,
A = [2], B = [3]. -/
theorem matmul_naive_spec_witness :
    (matmul_naive [(2 : ℚ)] [(3 : ℚ)] 1 1 1).length = 1 * 1 ∧
    (∀ i j, i < 1 → j < 1 →
      (matmul_naive [(2 : ℚ)] [(3 : ℚ)] 1 1 1).getD (i * 1 + j) 0
        = ∑ k ∈ Finset.range 1,
            [(2 : ℚ)].getD (i * 1 + k) 0 * [(3 : ℚ)].getD (k * 1 + j) 0) ∧
    (1 = 1 → 1 = 1 → 1 = 1 →
      matmul_naive [(2 : ℚ)] [(3 : ℚ)] 1 1 1 = [[(2 : ℚ)].getD 0 0 * [(3 : ℚ)].getD 0 0]) :=
  matmul_naive_spec 1 1 1 [2] [3] (by decide) (by decide) (by decide) rfl rfl

/-- Claim C8: if `rknn_matmul_create` hands back a negative status at some
size's setup (all earlier setups succeeding), the process aborts right
there, reporting that status, with no retry and no fallback; if every setup
succeeds, `main` completes all sizes and exits with code 0. -/
theorem main_abort_on_create_failure (ret : ℕ → ℤ) :
    ((∀ s ∈ mainSizes, 0 ≤ ret s) → mainExit ret = Except.ok 0) ∧
    (∀ pre s post, mainSizes = pre ++ s :: post → ret s < 0 →
      (∀ t ∈ pre, 0 ≤ ret t) → mainExit ret = Except.error (ret s)) := by
  constructor
  · intro h
    exact mainExitGo_ok ret mainSizes h
  · intro pre s post hsplit hneg hpre
    unfold mainExit
    rw [hsplit]
    exact mainExitGo_abort ret s hneg pre hpre post

/-- Witness for C8: all setups succeeding (status 0 everywhere) gives exit
code 0; a failing first setup (status −1 at size 256) aborts with −1. -/
theorem main_abort_on_create_failure_witness :
    mainExit (fun _ => 0) = Except.ok 0 ∧
    mainExit (fun _ => (-1 : ℤ)) = Except.error (-1) :=
  ⟨(main_abort_on_create_failure (fun _ => 0)).1 (fun _ _ => le_refl 0),
   (main_abort_on_create_failure (fun _ => (-1 : ℤ))).2 [] 256 [512, 1024, 2048] rfl
     (by decide) (fun t ht => absurd ht (List.not_mem_nil t))⟩

/-- Claim C9: whatever repeat count `R` the caller requests, `bench_all`
benchmarks the naive backend with the fixed repeat count 3 (3 backend
invocations, 3 samples), while the cblas and rknn backends each get the
caller's `R` (R invocations — for rknn, R `rknn_matmul_run` events — and R
samples). -/
theorem bench_all_repeat_counts (cvt : ℚ → ℚ) (M K N R : ℕ) (o : Oracles) (first : Bool) :
    (bench_all cvt M K N R o first).1.naive.calls.length = 3 ∧
    (bench_all cvt M K N R o first).1.naive.samples.length = 3 ∧
    (bench_all cvt M K N R o first).1.cblas.calls.length = R ∧
    (bench_all cvt M K N R o first).1.cblas.samples.length = R ∧
    (bench_all cvt M K N R o first).1.rknnEvents.countP isRun = R ∧
    (bench_all cvt M K N R o first).1.rknnSamples.length = R := by
  refine ⟨?_, ?_, ?_, ?_, ?_, ?_⟩ <;>
    simp [bench_all, benchmark, List.countP_cons, isRun,
      rknn_iters_countP_run cvt _ _ R first]

/-- Claim C10: when `A` has at least `M*K` elements and `B` at least `K*N`,
every access the naive loops perform is in bounds: the bounds-checked
embedding never takes its out-of-bounds branch and agrees with the total
one. -/
theorem matmul_naive_in_bounds (M K N : ℕ) (A B : List ℚ)
    (hA : M * K ≤ A.length) (hB : K * N ≤ B.length) :
    matmul_naive_checked A B M K N = some (matmul_naive A B M K N) := by
  unfold matmul_naive_checked matmul_naive
  apply mapOption_eq_some
  intro ij hij
  simp only [mnIndices, List.mem_flatMap, List.mem_map, List.mem_range] at hij
  obtain ⟨i, hi, j, hj, rfl⟩ := hij
  exact matDotChecked_eq A B K N i j
    (fun k hk => lt_of_lt_of_le (index_lt hi hk) hA)
    (fun k hk => lt_of_lt_of_le (index_lt hk hj) hB)

/-- Witness for C10: `matmul_naive_in_bounds` applied at M = K = N = 1,
A = [2], B = [3]. -/
theorem matmul_naive_in_bounds_witness :
    matmul_naive_checked [(2 : ℚ)] [(3 : ℚ)] 1 1 1
      = some (matmul_naive [(2 : ℚ)] [(3 : ℚ)] 1 1 1) :=
  matmul_naive_in_bounds 1 1 1 [2] [3] (by decide) (by decide)

/-- Claim C5: for any repeat count R ≥ 1, `benchmark` draws one random
`M×K` matrix and one random `K×N` matrix before the timing loop, invokes
the backend exactly R times always on that same fixed pair, records exactly
R timing samples, and returns the triple (minimum, mean, population
standard deviation) of those R samples. -/
theorem benchmark_spec (M K N R : ℕ)
    (func : List ℚ → List ℚ → ℕ → ℕ → ℕ → List ℚ) (rngA rngB dur : ℕ → ℚ)
    (hR : 1 ≤ R) :
    (benchmark M K N R func rngA rngB dur).A.length = M * K ∧
    (benchmark M K N R func rngA rngB dur).B.length = K * N ∧
    (benchmark M K N R func rngA rngB dur).calls =
      List.replicate R
        ((benchmark M K N R func rngA rngB dur).A,
         (benchmark M K N R func rngA rngB dur).B) ∧
    (benchmark M K N R func rngA rngB dur).samples.length = R ∧
    ∃ m, m ∈ (benchmark M K N R func rngA rngB dur).samples ∧
      (∀ s ∈ (benchmark M K N R func rngA rngB dur).samples, m ≤ s) ∧
      (benchmark M K N R func rngA rngB dur).result =
        some (m, calculateAverage (benchmark M K N R func rngA rngB dur).samples,
                 calculateStdDev (benchmark M K N R func rngA rngB dur).samples) := by
  have hne : ((List.range R).map dur) ≠ [] := by
    intro h
    have := congrArg List.length h
    simp at this
    omega
  obtain ⟨m, hmin, hmem, hle⟩ := listMin_spec _ hne
  refine ⟨?_, ?_, ?_, ?_, ⟨m, ?_, ?_, ?_⟩⟩
  · simp [benchmark, make_random_matrix]
  · simp [benchmark, make_random_matrix]
  · simp [benchmark, List.map_const']
  · simp [benchmark]
  · simpa [benchmark] using hmem
  · intro s hs
    exact hle s (by simpa [benchmark] using hs)
  · simp only [benchmark]
    rw [hmin]
    rfl

/-- Witness for C5: `benchmark_spec` applied at M = K = N = R = 1 with the
naive backend and all-zero oracles. -/
theorem benchmark_spec_witness :
    (benchmark 1 1 1 1 matmul_naive (fun _ => 0) (fun _ => 0) (fun _ => 0)).A.length = 1 * 1 ∧
    (benchmark 1 1 1 1 matmul_naive (fun _ => 0) (fun _ => 0) (fun _ => 0)).B.length = 1 * 1 ∧
    (benchmark 1 1 1 1 matmul_naive (fun _ => 0) (fun _ => 0) (fun _ => 0)).calls =
      List.replicate 1
        ((benchmark 1 1 1 1 matmul_naive (fun _ => 0) (fun _ => 0) (fun _ => 0)).A,
         (benchmark 1 1 1 1 matmul_naive (fun _ => 0) (fun _ => 0) (fun _ => 0)).B) ∧
    (benchmark 1 1 1 1 matmul_naive (fun _ => 0) (fun _ => 0) (fun _ => 0)).samples.length = 1 ∧
    ∃ m, m ∈ (benchmark 1 1 1 1 matmul_naive (fun _ => 0) (fun _ => 0) (fun _ => 0)).samples ∧
      (∀ s ∈ (benchmark 1 1 1 1 matmul_naive (fun _ => 0) (fun _ => 0) (fun _ => 0)).samples,
        m ≤ s) ∧
      (benchmark 1 1 1 1 matmul_naive (fun _ => 0) (fun _ => 0) (fun _ => 0)).result =
        some (m,
          calculateAverage
            (benchmark 1 1 1 1 matmul_naive (fun _ => 0) (fun _ => 0) (fun _ => 0)).samples,
          calculateStdDev
            (benchmark 1 1 1 1 matmul_naive (fun _ => 0) (fun _ => 0) (fun _ => 0)).samples) :=
  benchmark_spec 1 1 1 1 matmul_naive (fun _ => 0) (fun _ => 0) (fun _ => 0) (le_refl 1)

/-- Claim C6: on a non-empty sample list, `calculateAverage` is the
arithmetic mean (sum divided by count) and `calculateStdDev` is the
population standard deviation: the square root of the sum of squared
deviations from that mean divided by the count N (not N−1). -/
theorem stats_mean_stddev_spec (vec : List ℚ) (hvec : vec ≠ []) :
    calculateAverage vec = vec.sum / vec.length ∧
    calculateStdDev vec =
      Real.sqrt
        (((vec.map (fun x => (x - vec.sum / vec.length) ^ 2)).sum / vec.length : ℚ)) := by
  refine ⟨calculateAverage_eq vec, ?_⟩
  have hmap : vec.map (fun x => (x - calculateAverage vec) * (x - calculateAverage vec))
      = vec.map (fun x => (x - vec.sum / vec.length) ^ 2) := by
    apply List.map_congr_left
    intro x _
    rw [calculateAverage_eq, sq]
  rw [calculateStdDev_eq, hmap]

/-- Witness for C6: `stats_mean_stddev_spec` applied to the samples [1, 3]. -/
theorem stats_mean_stddev_spec_witness :
    calculateAverage [(1 : ℚ), 3] = [(1 : ℚ), 3].sum / [(1 : ℚ), 3].length ∧
    calculateStdDev [(1 : ℚ), 3] =
      Real.sqrt
        ((([(1 : ℚ), 3].map
              (fun x => (x - [(1 : ℚ), 3].sum / [(1 : ℚ), 3].length) ^ 2)).sum
            / [(1 : ℚ), 3].length : ℚ)) :=
  stats_mean_stddev_spec [1, 3] (by simp)

/-- Claim C7: on a non-empty sample list, the minimum is at most the mean,
the standard deviation is non-negative, and it is zero exactly when all
samples are equal. -/
theorem stats_min_le_mean_and_stddev_zero_iff (vec : List ℚ) (hvec : vec ≠ []) :
    (∃ m, vec.min? = some m ∧ m ≤ calculateAverage vec) ∧
    0 ≤ calculateStdDev vec ∧
    (calculateStdDev vec = 0 ↔ ∀ x ∈ vec, ∀ y ∈ vec, x = y) := by
  have hlen0 : vec.length ≠ 0 := fun h => hvec (List.length_eq_zero.mp h)
  have hlenq : 0 < (vec.length : ℚ) := by
    have hp : 0 < vec.length := Nat.pos_of_ne_zero hlen0
    exact_mod_cast hp
  refine ⟨?_, ?_, ?_⟩
  · obtain ⟨m, hmin, _, hle⟩ := listMin_spec vec hvec
    refine ⟨m, hmin, ?_⟩
    rw [calculateAverage_eq, le_div_iff₀ hlenq]
    exact mul_length_le_sum vec m hle
  · rw [calculateStdDev_eq]
    exact Real.sqrt_nonneg _
  · have hnn : ∀ z ∈ vec.map
        (fun x => (x - calculateAverage vec) * (x - calculateAverage vec)), 0 ≤ z := by
      intro z hz
      rw [List.mem_map] at hz
      obtain ⟨x, _, rfl⟩ := hz
      exact mul_self_nonneg _
    have hsum_nn : 0 ≤ (vec.map
        (fun x => (x - calculateAverage vec) * (x - calculateAverage vec))).sum :=
      List.sum_nonneg hnn
    rw [calculateStdDev_eq, Real.sqrt_eq_zero', Rat.cast_nonpos]
    constructor
    · intro hle0
      have hq0 : (vec.map
            (fun x => (x - calculateAverage vec) * (x - calculateAverage vec))).sum
            / vec.length = 0 :=
        le_antisymm hle0 (div_nonneg hsum_nn hlenq.le)
      have hsum0 : (vec.map
            (fun x => (x - calculateAverage vec) * (x - calculateAverage vec))).sum = 0 := by
        rcases div_eq_zero_iff.mp hq0 with h | h
        · exact h
        · exact absurd h (ne_of_gt hlenq)
      have hall := (sum_nonneg_eq_zero_iff _ hnn).mp hsum0
      have hx : ∀ x ∈ vec, x = calculateAverage vec := by
        intro x hxm
        have h0 := hall _ (List.mem_map_of_mem
          (fun x => (x - calculateAverage vec) * (x - calculateAverage vec)) hxm)
        exact sub_eq_zero.mp (mul_self_eq_zero.mp h0)
      intro x hxv y hyv
      rw [hx x hxv, hx y hyv]
    · intro h
      obtain ⟨a, t, rfl⟩ : ∃ a t, vec = a :: t := by
        cases vec with
        | nil => exact absurd rfl hvec
        | cons a t => exact ⟨a, t, rfl⟩
      have hall : ∀ x ∈ a :: t, x = a := fun x hx => h x hx a (List.mem_cons_self a t)
      have havg : calculateAverage (a :: t) = a := by
        rw [calculateAverage_eq, sum_const_of_eq _ a hall]
        exact mul_div_cancel_left₀ a (Nat.cast_ne_zero.mpr hlen0)
      have hz : ∀ z ∈ (a :: t).map
          (fun x => (x - calculateAverage (a :: t)) * (x - calculateAverage (a :: t))),
          z = 0 := by
        intro z hz'
        rw [List.mem_map] at hz'
        obtain ⟨x, hxm, rfl⟩ := hz'
        rw [hall x hxm, havg]
        ring
      have hs0 : ((a :: t).map
          (fun x => (x - calculateAverage (a :: t)) * (x - calculateAverage (a :: t)))).sum
          = 0 := by
        rw [sum_const_of_eq _ 0 hz]
        ring
      rw [hs0]
      simp

/-- Witness for C7: `stats_min_le_mean_and_stddev_zero_iff` applied to the
samples [2, 2]. -/
theorem stats_min_le_mean_and_stddev_zero_iff_witness :
    (∃ m, [(2 : ℚ), 2].min? = some m ∧ m ≤ calculateAverage [(2 : ℚ), 2]) ∧
    0 ≤ calculateStdDev [(2 : ℚ), 2] ∧
    (calculateStdDev [(2 : ℚ), 2] = 0 ↔ ∀ x ∈ [(2 : ℚ), 2], ∀ y ∈ [(2 : ℚ), 2], x = y) :=
  stats_min_le_mean_and_stddev_zero_iff [2, 2] (by simp)
